import Mathlib

/-!
Verification of the context-window construction algorithm in
`src/vscode/src/completions/get-current-doc-context.ts`.

Strings are modelled as `List Char` (`Str`), so that JS string indexing,
`slice`, `split('\n')` and `join('\n')` become plain list operations.
JS numbers appearing in similarity scores are modelled as `JSNum`:
exact rationals plus an explicit `nan` value mirroring IEEE `0/0 = NaN`
(which arises in `semanticSimilarity` when both lines are empty).
-/

/-- Text is a list of characters (JS strings, indexed per code unit). -/
abbrev Str := List Char

/-- Coerce a Lean string literal to the `Str` model. -/
def str (s : String) : Str := s.toList

/-- Modelled from the spec: `splitLines(text)` from the external line
utilities (`./text-processing`, not under `src/`): newline-delimited split
preserving empty trailing segments, i.e. JS `text.split('\n')`
(so `lines "" = [""]` and `lines "a\n" = ["a", ""]`). -/
def lines : Str → List Str
  | [] => [[]]
  | c :: rest =>
    match lines rest with
    | [] => [[]]
    | l :: ls => if c = '\n' then [] :: l :: ls else (c :: l) :: ls

/-- JS `parts.join('\n')`. -/
def joinN : List Str → Str
  | [] => []
  | l :: [] => l
  | l :: l2 :: ls => l ++ '\n' :: joinN (l2 :: ls)

theorem lines_ne_nil (s : Str) : lines s ≠ [] := by
  cases s with
  | nil => simp [lines]
  | cons c rest =>
    simp only [lines]
    cases lines rest with
    | nil => simp
    | cons l ls =>
      by_cases h : c = '\n' <;> simp [h]

theorem joinN_lines (s : Str) : joinN (lines s) = s := by
  induction s with
  | nil => rfl
  | cons c rest ih =>
    simp only [lines]
    cases hl : lines rest with
    | nil => exact absurd hl (lines_ne_nil rest)
    | cons l ls =>
      rw [hl] at ih
      by_cases h : c = '\n'
      · subst h
        simp only [if_pos rfl, joinN, List.nil_append]
        rw [ih]
      · simp only [if_neg h]
        cases ls with
        | nil => simp only [joinN] at ih ⊢; rw [ih]
        | cons l2 ls2 => simp only [joinN] at ih ⊢; rw [List.cons_append, ih]

/-- Total raw length of a list of lines (no newline cost). -/
def sumLens (ls : List Str) : ℕ := (ls.map List.length).sum

theorem sumLens_nil : sumLens [] = 0 := rfl

theorem sumLens_cons (l : Str) (ls : List Str) :
    sumLens (l :: ls) = l.length + sumLens ls := by
  simp [sumLens]

/-! ## The Levenshtein engine (`levenshteinDistance`, source lines 87-121)

The source builds a `(len2+1) × (len1+1)` matrix row by row:
row `0` is `j ↦ j`, and row `i+1` is computed from row `i` with the classic
deletion / insertion / substitution recurrence, comparing `text1[j-1]` with
`text2[i-1]`.  `levRowAt t1 t2 i` is row `i` as a function of the column. -/

/-- One step of the row DP: given row `i` (`prev`), compute row `i+1`
(cell `(i+1, j)` of the source's `matrix`). -/
def levRowNext (t1 t2 : Str) (i : ℕ) (prev : ℕ → ℕ) : ℕ → ℕ
  | 0 => i + 1
  | j + 1 =>
    min (prev (j + 1) + 1)
      (min (levRowNext t1 t2 i prev j + 1)
        (prev j + (if t1.getD j ' ' = t2.getD i ' ' then 0 else 1)))

/-- Row `i` of the source's DP matrix, as a function of the column `j`. -/
def levRowAt (t1 t2 : Str) : ℕ → (ℕ → ℕ)
  | 0 => fun j => j
  | i + 1 => levRowNext t1 t2 i (levRowAt t1 t2 i)

/-- Cell `matrix[i][j]` of the source's DP matrix. -/
def levCell (t1 t2 : Str) (i j : ℕ) : ℕ := levRowAt t1 t2 i j

/-- `levenshteinDistance(text1, text2)` (source lines 87-121): early returns
for an empty argument, otherwise the bottom-right DP cell
`matrix[text2.length][text1.length]`. -/
def levenshteinDistance (text1 text2 : Str) : ℕ :=
  if text1.length = 0 then text2.length
  else if text2.length = 0 then text1.length
  else levCell text1 text2 text2.length text1.length

/-! ## Reference edit distance and edit scripts -/

/-- Reference recursive edit distance (head recursion, unit costs,
0-cost match). -/
def editDist : List Char → List Char → ℕ
  | [], ys => ys.length
  | x :: xs, [] => (x :: xs).length
  | x :: xs, y :: ys =>
    min (editDist xs (y :: ys) + 1)
      (min (editDist (x :: xs) ys + 1)
        (editDist xs ys + (if x = y then 0 else 1)))
termination_by a b => a.length + b.length
decreasing_by all_goals simp_arith

/-- A single edit: insert, delete or substitute one character at some
position (the `cons` rule moves the position to the right). -/
inductive EStep : List Char → List Char → Prop
  | ins (c : Char) (l : List Char) : EStep l (c :: l)
  | del (c : Char) (l : List Char) : EStep (c :: l) l
  | repl (a b : Char) (l : List Char) : EStep (a :: l) (b :: l)
  | cons (c : Char) {l l' : List Char} : EStep l l' → EStep (c :: l) (c :: l')

/-- `EditChain n a b`: `b` is reachable from `a` by exactly `n` single edits. -/
inductive EditChain : ℕ → List Char → List Char → Prop
  | refl (l : List Char) : EditChain 0 l l
  | step {n : ℕ} {a b c : List Char} :
      EStep a b → EditChain n b c → EditChain (n + 1) a c

theorem EditChain.trans {m n : ℕ} {a b c : List Char}
    (h1 : EditChain m a b) (h2 : EditChain n b c) : EditChain (m + n) a c := by
  induction h1 with
  | refl l => simpa using h2
  | step s _ ih =>
    have := EditChain.step s (ih h2)
    simpa [Nat.succ_add, Nat.add_comm, Nat.add_assoc, Nat.add_left_comm] using this

theorem EditChain.snoc {n : ℕ} {a b c : List Char}
    (h : EditChain n a b) (s : EStep b c) : EditChain (n + 1) a c :=
  h.trans (EditChain.step s (EditChain.refl c))

theorem EditChain.cons_lift {n : ℕ} {l l' : List Char} (c : Char)
    (h : EditChain n l l') : EditChain n (c :: l) (c :: l') := by
  induction h with
  | refl l => exact EditChain.refl _
  | step s _ ih => exact EditChain.step (EStep.cons c s) ih

theorem editChain_nil_to (l : List Char) : EditChain l.length [] l := by
  induction l with
  | nil => exact EditChain.refl _
  | cons x xs ih => exact ih.snoc (EStep.ins x xs)

theorem editChain_to_nil (l : List Char) : EditChain l.length l [] := by
  induction l with
  | nil => exact EditChain.refl _
  | cons x xs ih => exact EditChain.step (EStep.del x xs) ih

theorem editDist_nil_left (ys : List Char) : editDist [] ys = ys.length := by
  simp [editDist]

theorem editDist_nil_right (xs : List Char) : editDist xs [] = xs.length := by
  cases xs <;> simp [editDist]

theorem editDist_cons_cons (x y : Char) (xs ys : List Char) :
    editDist (x :: xs) (y :: ys) =
      min (editDist xs (y :: ys) + 1)
        (min (editDist (x :: xs) ys + 1)
          (editDist xs ys + (if x = y then 0 else 1))) := by
  simp [editDist]

/-- Upper bound: an edit chain of length `editDist a b` always exists. -/
theorem editChain_editDist (a : List Char) : ∀ b, EditChain (editDist a b) a b := by
  induction a with
  | nil =>
    intro b
    rw [editDist_nil_left]
    exact editChain_nil_to b
  | cons x xs iha =>
    intro b
    induction b with
    | nil =>
      rw [editDist_nil_right]
      exact editChain_to_nil (x :: xs)
    | cons y ys ihb =>
      have ca : EditChain (editDist xs (y :: ys) + 1) (x :: xs) (y :: ys) :=
        EditChain.step (EStep.del x xs) (iha (y :: ys))
      have cb : EditChain (editDist (x :: xs) ys + 1) (x :: xs) (y :: ys) :=
        ihb.snoc (EStep.ins y ys)
      have cc : EditChain (editDist xs ys + (if x = y then 0 else 1))
          (x :: xs) (y :: ys) := by
        by_cases h : x = y
        · subst h
          simpa using (iha ys).cons_lift x
        · simp only [if_neg h]
          exact EditChain.step (EStep.repl x y xs) ((iha ys).cons_lift y)
      rw [editDist_cons_cons]
      rcases Nat.lt_trichotomy (editDist xs (y :: ys) + 1)
          (min (editDist (x :: xs) ys + 1)
            (editDist xs ys + (if x = y then 0 else 1))) with h | h | h
      · rw [min_eq_left (Nat.le_of_lt h)]; exact ca
      · rw [min_eq_left (Nat.le_of_eq h)]; exact ca
      · rw [min_eq_right (Nat.le_of_lt h)]
        rcases le_total (editDist (x :: xs) ys + 1)
            (editDist xs ys + (if x = y then 0 else 1)) with h2 | h2
        · rw [min_eq_left h2]; exact cb
        · rw [min_eq_right h2]; exact cc

theorem editDist_del_le (c : Char) (l b : List Char) :
    editDist (c :: l) b ≤ editDist l b + 1 := by
  cases b with
  | nil => simp [editDist_nil_right]
  | cons y ys => rw [editDist_cons_cons]; omega

theorem editDist_ins_le (a : List Char) (y : Char) (ys : List Char) :
    editDist a (y :: ys) ≤ editDist a ys + 1 := by
  cases a with
  | nil => simp [editDist_nil_left]
  | cons x xs => rw [editDist_cons_cons]; omega

theorem estep_length {a b : List Char} (h : EStep a b) :
    a.length ≤ b.length + 1 ∧ b.length ≤ a.length + 1 := by
  induction h with
  | ins c l => simp only [List.length_cons]; omega
  | del c l => simp only [List.length_cons]; omega
  | repl x y l => simp
  | cons c _ ih => simpa using ih

/-- Lower-bound step lemma: one edit on the left argument changes the
reference distance by at most one. -/
theorem editDist_le_of_estep {a a' : List Char} (h : EStep a a') :
    ∀ b, editDist a b ≤ editDist a' b + 1 := by
  induction h with
  | ins c l =>
    intro b
    induction b with
    | nil => simp only [editDist_nil_right, List.length_cons]; omega
    | cons y ys ihb =>
      have h1 : editDist l (y :: ys) ≤ editDist l ys + 1 := editDist_ins_le l y ys
      rw [editDist_cons_cons c y l ys]
      have h3 : (if c = y then 0 else 1) ≤ 1 := by split <;> omega
      omega
  | del c l =>
    intro b
    exact editDist_del_le c l b
  | repl x y l =>
    intro b
    induction b with
    | nil => simp [editDist_nil_right]
    | cons y' ys ihb =>
      rw [editDist_cons_cons x y' l ys, editDist_cons_cons y y' l ys]
      have h3 : (if x = y' then 0 else 1) ≤ (if y = y' then 0 else 1) + 1 := by
        split <;> split <;> omega
      omega
  | cons c hstep ih =>
    rename_i l l'
    intro b
    induction b with
    | nil =>
      have := (estep_length hstep).1
      simp only [editDist_nil_right, List.length_cons]
      omega
    | cons y ys ihb =>
      have h1 := ih (y :: ys)
      have h2 := ih ys
      rw [editDist_cons_cons c y l ys, editDist_cons_cons c y l' ys]
      omega

theorem editDist_self (l : List Char) : editDist l l = 0 := by
  induction l with
  | nil => simp [editDist_nil_left]
  | cons x xs ih => rw [editDist_cons_cons]; simp [ih]

/-- Lower bound: no edit chain is shorter than the reference distance. -/
theorem editDist_le_editChain {n : ℕ} {a b : List Char}
    (h : EditChain n a b) : editDist a b ≤ n := by
  induction h with
  | refl l => simp [editDist_self]
  | step s _ ih =>
    rename_i m x y z _
    have := editDist_le_of_estep s z
    omega

theorem take_succ_getD {α : Type} (l : List α) (n : ℕ) (h : n < l.length) (d : α) :
    l.take (n + 1) = l.take n ++ [l.getD n d] := by
  induction l generalizing n with
  | nil => simp at h
  | cons a as ih =>
    cases n with
    | zero => simp
    | succ m =>
      simp only [List.length_cons] at h
      simp only [List.take_succ_cons, List.getD_cons_succ]
      rw [ih m (by omega)]
      simp

theorem reverse_take_succ {α : Type} (l : List α) (n : ℕ) (h : n < l.length) (d : α) :
    (l.take (n + 1)).reverse = l.getD n d :: (l.take n).reverse := by
  rw [take_succ_getD l n h d, List.reverse_append]
  simp

/-- The DP matrix cell `(i, j)` equals the reference edit distance between
the reversed `j`-prefix of `text1` and the reversed `i`-prefix of `text2`. -/
theorem levCell_eq_editDist (t1 t2 : Str) :
    ∀ i j, i ≤ t2.length → j ≤ t1.length →
      levCell t1 t2 i j = editDist ((t1.take j).reverse) ((t2.take i).reverse) := by
  intro i
  induction i with
  | zero =>
    intro j hi hj
    simp only [levCell, levRowAt, List.take_zero, List.reverse_nil,
      editDist_nil_right, List.length_reverse, List.length_take]
    omega
  | succ i ihi =>
    intro j
    induction j with
    | zero =>
      intro hi hj
      simp only [levCell, levRowAt, levRowNext, List.take_zero, List.reverse_nil,
        editDist_nil_left, List.length_reverse, List.length_take]
      omega
    | succ j ihj =>
      intro hi hj
      have hi' : i ≤ t2.length := by omega
      have hj' : j ≤ t1.length := by omega
      have e1 : levCell t1 t2 (i + 1) (j + 1) =
          min (levCell t1 t2 i (j + 1) + 1)
            (min (levCell t1 t2 (i + 1) j + 1)
              (levCell t1 t2 i j +
                (if t1.getD j ' ' = t2.getD i ' ' then 0 else 1))) := rfl
      rw [e1, ihi (j + 1) hi' hj, ihi j hi' hj', ihj hi hj',
        reverse_take_succ t1 j (by omega) ' ', reverse_take_succ t2 i (by omega) ' ',
        editDist_cons_cons]
      by_cases h : t1.getD j ' ' = t2.getD i ' ' <;> simp only [h] <;> omega

/-- `levenshteinDistance` equals the reference edit distance of the
reversed strings. -/
theorem levenshteinDistance_eq_editDist (a b : Str) :
    levenshteinDistance a b = editDist a.reverse b.reverse := by
  unfold levenshteinDistance
  by_cases ha : a.length = 0
  · have : a = [] := List.length_eq_zero.mp ha
    subst this
    simp [editDist_nil_left]
  · by_cases hb : b.length = 0
    · have : b = [] := List.length_eq_zero.mp hb
      subst this
      simp [ha, editDist_nil_right]
    · simp only [ha, hb, if_false]
      rw [levCell_eq_editDist a b b.length a.length (le_refl _) (le_refl _)]
      simp

theorem estep_snoc_congr {u v : List Char} (c : Char) (h : EStep u v) :
    EStep (u ++ [c]) (v ++ [c]) := by
  induction h with
  | ins c' l => exact EStep.ins c' (l ++ [c])
  | del c' l => exact EStep.del c' (l ++ [c])
  | repl a b l => exact EStep.repl a b (l ++ [c])
  | cons c' _ ih => exact EStep.cons c' ih

theorem estep_append_single (l : List Char) (c : Char) : EStep l (l ++ [c]) := by
  induction l with
  | nil => exact EStep.ins c []
  | cons x xs ih => exact EStep.cons x ih

theorem estep_single_append (l : List Char) (c : Char) : EStep (l ++ [c]) l := by
  induction l with
  | nil => exact EStep.del c []
  | cons x xs ih => exact EStep.cons x ih

theorem estep_append_repl (l : List Char) (a b : Char) :
    EStep (l ++ [a]) (l ++ [b]) := by
  induction l with
  | nil => exact EStep.repl a b []
  | cons x xs ih => exact EStep.cons x ih

theorem estep_reverse {u v : List Char} (h : EStep u v) :
    EStep u.reverse v.reverse := by
  induction h with
  | ins c l => simpa using estep_append_single l.reverse c
  | del c l => simpa using estep_single_append l.reverse c
  | repl a b l => simpa using estep_append_repl l.reverse a b
  | cons c _ ih => simpa using estep_snoc_congr c ih

theorem editChain_reverse {n : ℕ} {a b : List Char} (h : EditChain n a b) :
    EditChain n a.reverse b.reverse := by
  induction h with
  | refl l => exact EditChain.refl _
  | step s _ ih => exact EditChain.step (estep_reverse s) ih

/-- C2: for all strings `a` and `b`, `levenshteinDistance a b` is exactly the
minimum number of single-character insertions, deletions and substitutions
transforming `a` into `b` (there is an edit chain of that length, and no
shorter one); in particular, if either string is empty the result is the
other string's length. -/
theorem levenshteinDistance_minimal (a b : Str) :
    EditChain (levenshteinDistance a b) a b ∧
    (∀ n, EditChain n a b → levenshteinDistance a b ≤ n) ∧
    (a = [] → levenshteinDistance a b = b.length) ∧
    (b = [] → levenshteinDistance a b = a.length) := by
  refine ⟨?_, ?_, ?_, ?_⟩
  · rw [levenshteinDistance_eq_editDist]
    simpa using editChain_reverse (editChain_editDist a.reverse b.reverse)
  · intro n hn
    rw [levenshteinDistance_eq_editDist]
    exact editDist_le_editChain (editChain_reverse hn)
  · intro h
    subst h
    simp [levenshteinDistance]
  · intro h
    subst h
    unfold levenshteinDistance
    split <;> simp_all

/-- Witness for C2 at a concrete input: `"ab" → "b"` has distance 1. -/
theorem levenshteinDistance_minimal_witness :
    EditChain (levenshteinDistance (str "ab") (str "b")) (str "ab") (str "b") ∧
    (∀ n, EditChain n (str "ab") (str "b") →
      levenshteinDistance (str "ab") (str "b") ≤ n) ∧
    ((str "ab") = [] → levenshteinDistance (str "ab") (str "b") =
      (str "b").length) ∧
    ((str "b") = [] → levenshteinDistance (str "ab") (str "b") =
      (str "ab").length) :=
  levenshteinDistance_minimal (str "ab") (str "b")

/-! ## JS numbers for similarity scores

Scores are rationals plus an explicit `nan` (JS `0/0`).  `jadd` is JS `+`
(`NaN` absorbing) and `jgt a b` is JS `a > b` (any comparison with `NaN`
is false).  Rationals idealize IEEE doubles with exact arithmetic, matching
the spec's description of scores as real numbers. -/

inductive JSNum : Type
  | nan : JSNum
  | val : ℚ → JSNum
deriving DecidableEq

/-- JS addition: `NaN` absorbs. -/
def jadd : JSNum → JSNum → JSNum
  | JSNum.val a, JSNum.val b => JSNum.val (a + b)
  | _, _ => JSNum.nan

/-- JS `a > b`: false whenever either side is `NaN`. -/
def jgt : JSNum → JSNum → Bool
  | JSNum.val a, JSNum.val b => decide (b < a)
  | _, _ => false

theorem jgt_irrefl (x : JSNum) : jgt x x = false := by
  cases x <;> simp [jgt]

theorem jgt_true_val {x y : JSNum} (h : jgt x y = true) :
    ∃ a b : ℚ, x = JSNum.val a ∧ y = JSNum.val b ∧ b < a := by
  cases x with
  | nan => simp [jgt] at h
  | val a =>
    cases y with
    | nan => simp [jgt] at h
    | val b => exact ⟨a, b, rfl, rfl, by simpa [jgt] using h⟩

theorem jgt_false_of_le {x : JSNum} {h c : ℚ}
    (hx : jgt x (JSNum.val h) = false) (hc : h < c) :
    jgt x (JSNum.val c) = false := by
  cases x with
  | nan => simp [jgt]
  | val a =>
    simp only [jgt, decide_eq_false_iff_not, not_lt] at hx ⊢
    exact le_of_lt (lt_of_le_of_lt hx hc)

theorem jgt_trans {x y z : JSNum} (h1 : jgt x z = true) (h2 : jgt y x = true) :
    jgt y z = true := by
  obtain ⟨a, c, hx, hz, hca⟩ := jgt_true_val h1
  obtain ⟨b, a', hy, hx', ha'b⟩ := jgt_true_val h2
  rw [hx] at hx'
  have haa : a = a' := JSNum.val.inj hx'
  subst haa
  rw [hy, hz]
  simp only [jgt, decide_eq_true_eq]
  linarith

/-! ## The document model

`vscode.TextDocument` is modelled as its list of lines; the full text is
the newline-join.  `offsetAt`/`positionAt` implement the host's
offset/position conversion, which clamps out-of-range inputs (VS Code
"adjusts" invalid positions and offsets).  `lineCount = 0` (empty line
list) is representable to cover the spec's degenerate empty-document case. -/

structure Position : Type where
  line : ℕ
  character : ℕ
deriving DecidableEq, Repr

/-- `vscode.Range`; `endPos` models the `end` field (a Lean keyword). -/
structure Range : Type where
  start : Position
  endPos : Position
deriving DecidableEq, Repr

structure TextDocument : Type where
  docLines : List Str
deriving DecidableEq

/-- `document.lineCount`. -/
def lineCount (d : TextDocument) : ℕ := d.docLines.length

/-- `document.lineAt(i).text`; the host clamps/validates the line index,
modelled by a default of the empty line. -/
def lineAt (d : TextDocument) (i : ℕ) : Str := d.docLines.getD i []

/-- `document.getText()`: the whole text, lines joined by newlines. -/
def fullText (d : TextDocument) : Str := joinN d.docLines

/-- Offset of a (clamped) position: line index then character, walking
line lengths plus one per newline. -/
def offsetAtClamped : List Str → ℕ → ℕ → ℕ
  | [], _, _ => 0
  | l :: [], _, ch => min ch l.length
  | l :: _ :: _, 0, ch => min ch l.length
  | l :: l2 :: ls, ln + 1, ch => l.length + 1 + offsetAtClamped (l2 :: ls) ln ch

/-- `document.offsetAt(position)` (position validated by the host). -/
def offsetAt (d : TextDocument) (p : Position) : ℕ :=
  offsetAtClamped d.docLines p.line p.character

/-- Position of a (clamped) offset. -/
def positionAtClamped : List Str → ℕ → Position
  | [], _ => ⟨0, 0⟩
  | l :: [], o => ⟨0, min o l.length⟩
  | l :: l2 :: ls, o =>
    if o ≤ l.length then ⟨0, o⟩
    else
      let p := positionAtClamped (l2 :: ls) (o - (l.length + 1))
      ⟨p.line + 1, p.character⟩

/-- `document.positionAt(offset)`: the host clamps the offset into
`[0, text.length]` first (so negative offsets map to the start). -/
def positionAt (d : TextDocument) (o : ℤ) : Position :=
  positionAtClamped d.docLines
    ((max 0 (min o ((fullText d).length : ℤ))).toNat)

/-- `document.getText(range)`: the slice of the full text between the
offsets of the two endpoints. -/
def getTextRange (d : TextDocument) (r : Range) : Str :=
  ((fullText d).take (offsetAt d r.endPos)).drop (offsetAt d r.start)

theorem offsetAtClamped_le (ls : List Str) (ln ch : ℕ) :
    offsetAtClamped ls ln ch ≤ (joinN ls).length := by
  induction ls generalizing ln with
  | nil => simp [offsetAtClamped]
  | cons l rest ih =>
    cases rest with
    | nil => simp [offsetAtClamped, joinN]
    | cons l2 ls2 =>
      cases ln with
      | zero => simp [offsetAtClamped, joinN]
      | succ n =>
        have := ih n
        simp only [offsetAtClamped, joinN, List.length_append, List.length_cons]
        omega

theorem offsetAt_le (d : TextDocument) (p : Position) :
    offsetAt d p ≤ (fullText d).length :=
  offsetAtClamped_le d.docLines p.line p.character

theorem offsetAtClamped_zero (ls : List Str) :
    offsetAtClamped ls 0 0 = 0 := by
  cases ls with
  | nil => rfl
  | cons l rest => cases rest <;> simp [offsetAtClamped]

/-- Round trip: converting an in-range offset to a position and back is
the identity. -/
theorem offsetAt_positionAtClamped (ls : List Str) (o : ℕ)
    (h : o ≤ (joinN ls).length) :
    offsetAtClamped ls (positionAtClamped ls o).line
      (positionAtClamped ls o).character = o := by
  induction ls generalizing o with
  | nil => simp [joinN] at h; simp [positionAtClamped, offsetAtClamped, h]
  | cons l rest ih =>
    cases rest with
    | nil =>
      simp only [joinN] at h
      simp [positionAtClamped, offsetAtClamped]
      omega
    | cons l2 ls2 =>
      simp only [joinN, List.length_append, List.length_cons] at h
      by_cases ho : o ≤ l.length
      · simp [positionAtClamped, offsetAtClamped, ho]
      · simp only [positionAtClamped, if_neg ho]
        simp only [offsetAtClamped]
        rw [ih (o - (l.length + 1)) (by omega)]
        omega

/-! ## Similarity scorer and sliding-window semantic search
(source lines 45-85) -/

/-- `semanticSimilarity(text1, text2) = 1 - distance / max(len1, len2)`
(source lines 81-85).  When both strings are empty the distance is 0 and
JS computes `1 - 0/0 = NaN`, modelled by the `nan` branch. -/
def semanticSimilarity (text1 text2 : Str) : JSNum :=
  if max text1.length text2.length = 0 then JSNum.nan
  else
    JSNum.val (1 - (levenshteinDistance text1 text2 : ℚ) /
      ((max text1.length text2.length : ℕ) : ℚ))

structure SemanticContext : Type where
  semanticContext : List Str
  similarityScore : JSNum
deriving DecidableEq

/-- The block of `k` consecutive line texts starting at line `i`
(source line 60). -/
def blockOfLines (d : TextDocument) (i k : ℕ) : List Str :=
  (List.range k).map (fun idx => lineAt d (i + idx))

/-- `blockOfLines.reduce((acc, line) => acc + semanticSimilarity(currentLine,
line), 0)` (source lines 63-66). -/
def aggregateScore (cur : Str) (block : List Str) : JSNum :=
  block.foldl (fun acc line => jadd acc (semanticSimilarity cur line))
    (JSNum.val 0)

/-- One iteration of the search loop (source lines 59-76): the state is
`(mostSimilarContext, highestScore)`; a candidate replaces it only when
its aggregate score is strictly greater. -/
def semanticStep (cur : Str) (d : TextDocument) (k : ℕ)
    (st : SemanticContext × JSNum) (i : ℕ) : SemanticContext × JSNum :=
  let score := aggregateScore cur (blockOfLines d i k)
  if jgt score st.2 then (⟨blockOfLines d i k, score⟩, score) else st

/-- The search loop over start indices `0, 1, ..., n - 1`. -/
def semanticFold (cur : Str) (d : TextDocument) (k n : ℕ) :
    SemanticContext × JSNum :=
  (List.range n).foldl (semanticStep cur d k) (⟨[], JSNum.val 0⟩, JSNum.val 0)

/-- `getSemanticContextWithinDocument(document, position, k)` (source lines
45-79).  The JS loop `for (i = 0; i <= lineCount - k; i++)` runs for
`max 0 (lineCount - k + 1)` indices, which is `lineCount + 1 - k` in
truncated ℕ subtraction. -/
def getSemanticContextWithinDocument (d : TextDocument) (p : Position)
    (k : ℕ) : SemanticContext :=
  (semanticFold (lineAt d p.line) d k (lineCount d + 1 - k)).1

theorem semanticFold_succ (cur : Str) (d : TextDocument) (k n : ℕ) :
    semanticFold cur d k (n + 1) =
      semanticStep cur d k (semanticFold cur d k n) n := by
  simp [semanticFold, List.range_succ]

/-- Loop invariant of the search: the running pair is consistent, the
highest score is a number (never `NaN`), the best context is either still
the initial empty one or a candidate block whose score no earlier
candidate matches, and no scanned candidate strictly beats the highest
score. -/
theorem semanticFold_inv (cur : Str) (d : TextDocument) (k : ℕ) (n : ℕ) :
    (semanticFold cur d k n).2 = (semanticFold cur d k n).1.similarityScore ∧
    (∃ q : ℚ, (semanticFold cur d k n).2 = JSNum.val q) ∧
    (((semanticFold cur d k n).1.semanticContext = [] ∧
        (semanticFold cur d k n).1.similarityScore = JSNum.val 0) ∨
      (∃ i, i < n ∧
        (semanticFold cur d k n).1.semanticContext = blockOfLines d i k ∧
        (semanticFold cur d k n).1.similarityScore =
          aggregateScore cur (blockOfLines d i k) ∧
        jgt (aggregateScore cur (blockOfLines d i k)) (JSNum.val 0) = true ∧
        ∀ j, j < i → aggregateScore cur (blockOfLines d j k) ≠
          aggregateScore cur (blockOfLines d i k))) ∧
    (∀ j, j < n → jgt (aggregateScore cur (blockOfLines d j k))
      (semanticFold cur d k n).2 = false) := by
  induction n with
  | zero =>
    refine ⟨rfl, ⟨0, rfl⟩, Or.inl ⟨rfl, rfl⟩, ?_⟩
    intro j hj
    omega
  | succ n ih =>
    obtain ⟨h1, ⟨q, hq⟩, h3, h4⟩ := ih
    rw [semanticFold_succ]
    set st := semanticFold cur d k n with hst
    by_cases hg : jgt (aggregateScore cur (blockOfLines d n k)) st.2 = true
    · have hupd : semanticStep cur d k st n =
          (⟨blockOfLines d n k, aggregateScore cur (blockOfLines d n k)⟩,
            aggregateScore cur (blockOfLines d n k)) := by
        simp [semanticStep, hg]
      rw [hupd]
      obtain ⟨a, b, ha, hb, hab⟩ := jgt_true_val hg
      have hpos : jgt (aggregateScore cur (blockOfLines d n k))
          (JSNum.val 0) = true := by
        rcases h3 with ⟨_, hsc0⟩ | ⟨i, _, _, hsc, hposi, _⟩
        · rw [h1, hsc0] at hg
          exact hg
        · rw [h1, hsc] at hg
          exact jgt_trans hposi hg
      refine ⟨rfl, ⟨a, ha⟩,
        Or.inr ⟨n, Nat.lt_succ_self n, rfl, rfl, hpos, ?_⟩, ?_⟩
      · intro j hj heq
        have hf := h4 j hj
        rw [heq] at hf
        rw [hf] at hg
        exact Bool.false_ne_true hg
      · intro j hj
        rcases Nat.lt_succ_iff_lt_or_eq.mp hj with hj' | hj'
        · have hf := h4 j hj'
          rw [hb] at hf
          rw [hb] at hg
          have hba : b < a := hab
          rw [ha]
          exact jgt_false_of_le hf hba
        · subst hj'
          exact jgt_irrefl _
    · have hg' : jgt (aggregateScore cur (blockOfLines d n k)) st.2 = false :=
        Bool.eq_false_iff.mpr hg
      have hupd : semanticStep cur d k st n = st := by
        simp [semanticStep, hg']
      rw [hupd]
      refine ⟨h1, ⟨q, hq⟩, ?_, ?_⟩
      · rcases h3 with h | ⟨i, hi, hbl, hsc, hpos, hne⟩
        · exact Or.inl h
        · exact Or.inr ⟨i, Nat.lt_succ_of_lt hi, hbl, hsc, hpos, hne⟩
      · intro j hj
        rcases Nat.lt_succ_iff_lt_or_eq.mp hj with hj' | hj'
        · exact h4 j hj'
        · subst hj'
          exact hg'

/-! ## Context window builder (`getCurrentDocContext`, source lines 139-219) -/

structure SelectedCompletionInfo : Type where
  range : Range
  text : Str
deriving DecidableEq

/-- JS `s.slice(0, e)` with a possibly negative end index: a negative `e`
counts from the end of the string, and the result is clamped to `[0, len]`. -/
def jsSliceEnd (s : Str) (e : ℤ) : Str :=
  s.take
    ((max 0 (min (if e < 0 then (s.length : ℤ) + e else e)
      ((s.length : ℤ)))).toNat)

/-- The pre-cursor text patched with the selected completion (source line 154):
`completePrefix.slice(0, range.start.character - position.character) + text`. -/
def patchedPrefix (completePrefix : Str) (position : Position)
    (sci : SelectedCompletionInfo) : Str :=
  jsSliceEnd completePrefix
    ((sci.range.start.character : ℤ) - (position.character : ℤ)) ++ sci.text

/-- `injectedPrefix` before the record is built (source lines 155-158): the
part of the patched prefix beyond the original pre-cursor text's length;
an empty delta is normalized to `null`. -/
def injectedOf (completePrefix : Str) (position : Position)
    (sci : SelectedCompletionInfo) : Option Str :=
  let inj := (patchedPrefix completePrefix position sci).drop
    completePrefix.length
  if inj = [] then none else some inj

/-- `document.getText(new vscode.Range(new vscode.Position(0, 0), position))`
(source line 146). -/
def completePrefixOf (d : TextDocument) (p : Position) : Str :=
  getTextRange d ⟨⟨0, 0⟩, p⟩

/-- `document.getText(new vscode.Range(position, document.positionAt(
document.getText().length)))` (source line 147). -/
def completeSuffixOf (d : TextDocument) (p : Position) : Str :=
  getTextRange d ⟨p, positionAt d ((fullText d).length : ℤ)⟩

/-- The possibly completion-patched pre-cursor text (source lines 150-159). -/
def completePrefixWithContextCompletion (d : TextDocument) (p : Position)
    (context : Option SelectedCompletionInfo) : Str :=
  match context with
  | none => completePrefixOf d p
  | some sci => patchedPrefix (completePrefixOf d p) p sci

/-- The `injectedPrefix` value produced by source lines 150-159. -/
def injectedPrefixOf (d : TextDocument) (p : Position)
    (context : Option SelectedCompletionInfo) : Option Str :=
  match context with
  | none => none
  | some sci => injectedOf (completePrefixOf d p) p sci

/-- `prefixLines` (source line 161). -/
def prefixLinesOf (d : TextDocument) (p : Position)
    (context : Option SelectedCompletionInfo) : List Str :=
  lines (completePrefixWithContextCompletion d p context)

/-- The backward prefix walk (source lines 169-177), fed with the reversed
line list: walk from the last line down, break at the first line that would
push the running total over the cap, and return the kept lines in original
order (this equals `prefixLines.slice(startLine)`). -/
def keepLastLines : List Str → ℕ → ℕ → List Str
  | [], _, _ => []
  | l :: rest, total, maxLen =>
    if maxLen < total + l.length then []
    else keepLastLines rest (total + l.length) maxLen ++ [l]

/-- The forward suffix walk (source lines 186-194): accept lines while the
running total stays within the cap; the result is
`suffixLines.slice(0, endLine)`. -/
def takeSuffixLines : List Str → ℕ → ℕ → List Str
  | [], _, _ => []
  | l :: rest, total, maxLen =>
    if maxLen < total + l.length then []
    else l :: takeSuffixLines rest (total + l.length) maxLen

/-- Modelled from the spec: `previousNonEmptyLine(text)` from the external
line utilities (`./text-processing`, not under `src/`): the nearest
non-blank line strictly before the text's last line, or empty. -/
def getPrevNonEmptyLine (s : Str) : Str :=
  ((lines s).dropLast.reverse.find? (fun l => !l.isEmpty)).getD []

/-- Modelled from the spec: `nextNonEmptyLine(text)` from the external line
utilities (not under `src/`): the nearest non-blank line strictly after the
text's first line, or empty. -/
def getNextNonEmptyLine (s : Str) : Str :=
  (((lines s).drop 1).find? (fun l => !l.isEmpty)).getD []

/-- The assembled context record before the multiline trigger is attached
(the `docContext` local, source lines 200-213).  `prefixText`/`suffixText`
model the source's first two fields, whose name is a Lean keyword. -/
structure DocContextData : Type where
  prefixText : Str
  suffixText : Str
  contextRange : Range
  currentLinePrefix : Str
  currentLineSuffix : Str
  semanticContext : Str
  prevNonEmptyLine : Str
  nextNonEmptyLine : Str
  injectedPrefix : Option Str
deriving DecidableEq

/-- The returned `DocumentContext` (source lines 6-28, plus the
`semanticContext` field carried by the returned object literal). -/
structure DocumentContext extends DocContextData : Type where
  multilineTrigger : Option Str
deriving DecidableEq

/-- `getCurrentDocContext(params)` (source lines 139-219).  The external
`detectMultiline` classifier (from `./detect-multiline`, not under `src/`)
is a black-box parameter receiving the assembled context, the document and
the two pass-through flags, exactly as in source line 217. -/
def getCurrentDocContext
    (detectMultiline :
      DocContextData → TextDocument → Bool → Option Bool → Option Str)
    (document : TextDocument) (position : Position)
    (maxPrefixLength maxSuffixLength : ℕ)
    (enableExtendedTriggers : Bool) (syntacticTriggers : Option Bool)
    (context : Option SelectedCompletionInfo) : DocumentContext :=
  let offset := offsetAt document position
  let prefixLines := prefixLinesOf document position context
  let suffixLines := lines (completeSuffixOf document position)
  let currentLinePrefix := prefixLines.getLastD []
  let currentLineSuffix := suffixLines.headD []
  let prefixText :=
    if maxPrefixLength < offset then
      joinN (keepLastLines prefixLines.reverse 0 maxPrefixLength)
    else joinN prefixLines
  let semanticContextWithinDoc :=
    getSemanticContextWithinDocument document position 5
  let semanticContext := joinN semanticContextWithinDoc.semanticContext
  let suffixText := joinN (takeSuffixLines suffixLines 0 maxSuffixLength)
  let core : DocContextData :=
    { prefixText := prefixText
      suffixText := suffixText
      contextRange :=
        ⟨positionAt document ((offset : ℤ) - (prefixText.length : ℤ)),
          positionAt document ((offset : ℤ) + (suffixText.length : ℤ))⟩
      currentLinePrefix := currentLinePrefix
      currentLineSuffix := currentLineSuffix
      semanticContext := semanticContext
      prevNonEmptyLine := getPrevNonEmptyLine prefixText
      nextNonEmptyLine := getNextNonEmptyLine suffixText
      injectedPrefix := injectedPrefixOf document position context }
  { toDocContextData := core
    multilineTrigger :=
      detectMultiline core document enableExtendedTriggers syntacticTriggers }

/-! ## Properties of the truncation walks -/

theorem sumLens_take_succ (ls : List Str) (n : ℕ) :
    sumLens (ls.take (n + 1)) =
      sumLens (ls.take n) + (if n < ls.length then (ls.getD n []).length else 0) := by
  induction ls generalizing n with
  | nil => simp [sumLens]
  | cons l rest ih =>
    cases n with
    | zero => simp [sumLens_cons, sumLens_nil]
    | succ m =>
      simp only [List.take_succ_cons, sumLens_cons, List.getD_cons_succ,
        List.length_cons, ih m, Nat.add_lt_add_iff_right]
      omega

theorem sumLens_drop_le_self (ls : List Str) (k : ℕ) :
    sumLens (ls.drop k) ≤ sumLens ls := by
  induction ls generalizing k with
  | nil => simp
  | cons l rest ih =>
    cases k with
    | zero => simp
    | succ m =>
      simp only [List.drop_succ_cons, sumLens_cons]
      have := ih m
      omega

theorem sumLens_drop_antitone (ls : List Str) {t t' : ℕ} (h : t ≤ t') :
    sumLens (ls.drop t') ≤ sumLens (ls.drop t) := by
  have : ls.drop t' = (ls.drop t).drop (t' - t) := by
    rw [List.drop_drop]
    congr 1
    omega
  rw [this]
  exact sumLens_drop_le_self (ls.drop t) (t' - t)

/-- Backward walk, on the reversed list: the loop keeps a maximal-by-length
batch of trailing lines whose raw lengths fit in the cap starting from
`total`. -/
theorem keepLastLines_take (rls : List Str) :
    ∀ total maxLen, total ≤ maxLen →
      ∃ n, n ≤ rls.length ∧
        keepLastLines rls total maxLen = (rls.take n).reverse ∧
        total + sumLens (rls.take n) ≤ maxLen ∧
        (n < rls.length → maxLen < total + sumLens (rls.take (n + 1))) := by
  induction rls with
  | nil =>
    intro total maxLen h
    exact ⟨0, by simp, by simp [keepLastLines], by simpa [sumLens], by simp⟩
  | cons l rest ih =>
    intro total maxLen h
    by_cases hl : maxLen < total + l.length
    · refine ⟨0, by simp, ?_, by simpa [sumLens], ?_⟩
      · simp [keepLastLines, hl]
      · intro _
        simpa [sumLens_cons, sumLens_nil] using hl
    · push_neg at hl
      obtain ⟨n', hn', heq, hsum, hov⟩ := ih (total + l.length) maxLen hl
      refine ⟨n' + 1, by simpa using hn', ?_, ?_, ?_⟩
      · simp only [keepLastLines, if_neg (by omega : ¬ maxLen < total + l.length)]
        rw [heq, List.take_succ_cons, List.reverse_cons]
      · rw [List.take_succ_cons, sumLens_cons]
        omega
      · intro hlt
        have : n' < rest.length := by simpa using hlt
        have := hov this
        rw [List.take_succ_cons, sumLens_cons]
        omega

/-- Backward walk in terms of `List.drop`: the kept lines are exactly
`prefixLines.slice(startLine)`, where `startLine` is the least index whose
trailing batch of raw line lengths fits within the cap. -/
theorem keepLastLines_drop (ls : List Str) (maxLen : ℕ) :
    ∃ s, s ≤ ls.length ∧
      keepLastLines ls.reverse 0 maxLen = ls.drop s ∧
      sumLens (ls.drop s) ≤ maxLen ∧
      (∀ t, t < s → maxLen < sumLens (ls.drop t)) := by
  obtain ⟨n, hn, heq, hsum, hov⟩ :=
    keepLastLines_take ls.reverse 0 maxLen (Nat.zero_le _)
  rw [List.length_reverse] at hn
  have hconv : (ls.reverse.take n).reverse = ls.drop (ls.length - n) := by
    rw [← List.rtake_eq_reverse_take_reverse]
    rfl
  refine ⟨ls.length - n, by omega, by rw [heq, hconv], ?_, ?_⟩
  · rw [← hconv]
    have : sumLens (ls.reverse.take n).reverse = sumLens (ls.reverse.take n) := by
      simp [sumLens, List.sum_reverse]
    rw [this]
    omega
  · intro t ht
    have hnlt : n < ls.length := by omega
    have hov' := hov (by simpa [List.length_reverse] using hnlt)
    have hconv' : (ls.reverse.take (n + 1)).reverse = ls.drop (ls.length - (n + 1)) := by
      rw [← List.rtake_eq_reverse_take_reverse]
      rfl
    have hrev : sumLens (ls.reverse.take (n + 1)) =
        sumLens (ls.drop (ls.length - (n + 1))) := by
      rw [← hconv']
      simp [sumLens, List.sum_reverse]
    have hmono : sumLens (ls.drop (ls.length - (n + 1))) ≤ sumLens (ls.drop t) :=
      sumLens_drop_antitone ls (by omega)
    omega

/-- Forward walk: the loop keeps the longest initial batch of lines whose
raw lengths fit in the cap starting from `total`; the first rejected line
(if any) overflows the cap. -/
theorem takeSuffixLines_spec (ls : List Str) :
    ∀ total maxLen, total ≤ maxLen →
      ∃ e, e ≤ ls.length ∧
        takeSuffixLines ls total maxLen = ls.take e ∧
        total + sumLens (ls.take e) ≤ maxLen ∧
        (e < ls.length → maxLen < total + sumLens (ls.take (e + 1))) := by
  induction ls with
  | nil =>
    intro total maxLen h
    exact ⟨0, by simp, by simp [takeSuffixLines], by simpa [sumLens], by simp⟩
  | cons l rest ih =>
    intro total maxLen h
    by_cases hl : maxLen < total + l.length
    · refine ⟨0, by simp, by simp [takeSuffixLines, hl], by simpa [sumLens], ?_⟩
      intro _
      simpa [sumLens_cons, sumLens_nil] using hl
    · push_neg at hl
      obtain ⟨e', he', heq, hsum, hov⟩ := ih (total + l.length) maxLen hl
      refine ⟨e' + 1, by simpa using he', ?_, ?_, ?_⟩
      · simp only [takeSuffixLines, if_neg (by omega : ¬ maxLen < total + l.length)]
        rw [heq, List.take_succ_cons]
      · rw [List.take_succ_cons, sumLens_cons]
        omega
      · intro hlt
        have : e' < rest.length := by simpa using hlt
        have := hov this
        rw [List.take_succ_cons, sumLens_cons]
        omega

/-! ## Unfolding equations of the builder -/

theorem getCurrentDocContext_prefixText (detect :
      DocContextData → TextDocument → Bool → Option Bool → Option Str)
    (d : TextDocument) (p : Position) (maxP maxS : ℕ) (eet : Bool)
    (st : Option Bool) (ctx : Option SelectedCompletionInfo) :
    (getCurrentDocContext detect d p maxP maxS eet st ctx).prefixText =
      (if maxP < offsetAt d p then
        joinN (keepLastLines (prefixLinesOf d p ctx).reverse 0 maxP)
      else joinN (prefixLinesOf d p ctx)) := rfl

theorem getCurrentDocContext_suffixText (detect :
      DocContextData → TextDocument → Bool → Option Bool → Option Str)
    (d : TextDocument) (p : Position) (maxP maxS : ℕ) (eet : Bool)
    (st : Option Bool) (ctx : Option SelectedCompletionInfo) :
    (getCurrentDocContext detect d p maxP maxS eet st ctx).suffixText =
      joinN (takeSuffixLines (lines (completeSuffixOf d p)) 0 maxS) := rfl

theorem getCurrentDocContext_contextRange (detect :
      DocContextData → TextDocument → Bool → Option Bool → Option Str)
    (d : TextDocument) (p : Position) (maxP maxS : ℕ) (eet : Bool)
    (st : Option Bool) (ctx : Option SelectedCompletionInfo) :
    (getCurrentDocContext detect d p maxP maxS eet st ctx).contextRange =
      ⟨positionAt d ((offsetAt d p : ℤ) -
          ((getCurrentDocContext detect d p maxP maxS eet st ctx).prefixText.length : ℤ)),
        positionAt d ((offsetAt d p : ℤ) +
          ((getCurrentDocContext detect d p maxP maxS eet st ctx).suffixText.length : ℤ))⟩ := rfl

theorem getCurrentDocContext_injectedPrefix (detect :
      DocContextData → TextDocument → Bool → Option Bool → Option Str)
    (d : TextDocument) (p : Position) (maxP maxS : ℕ) (eet : Bool)
    (st : Option Bool) (ctx : Option SelectedCompletionInfo) :
    (getCurrentDocContext detect d p maxP maxS eet st ctx).injectedPrefix =
      injectedPrefixOf d p ctx := rfl

theorem getCurrentDocContext_semanticContext (detect :
      DocContextData → TextDocument → Bool → Option Bool → Option Str)
    (d : TextDocument) (p : Position) (maxP maxS : ℕ) (eet : Bool)
    (st : Option Bool) (ctx : Option SelectedCompletionInfo) :
    (getCurrentDocContext detect d p maxP maxS eet st ctx).semanticContext =
      joinN (getSemanticContextWithinDocument d p 5).semanticContext := rfl

/-! ## Offset arithmetic of the complete prefix/suffix -/

theorem offsetAt_positionAt_int (d : TextDocument) (o : ℤ) (h0 : 0 ≤ o)
    (h1 : o ≤ ((fullText d).length : ℤ)) :
    offsetAt d (positionAt d o) = o.toNat := by
  have hmm : max 0 (min o ((fullText d).length : ℤ)) = o := by omega
  have h2 : o.toNat ≤ (joinN d.docLines).length := by
    have hft : (fullText d).length = (joinN d.docLines).length := rfl
    omega
  unfold positionAt
  rw [hmm]
  exact offsetAt_positionAtClamped d.docLines o.toNat h2

theorem completePrefixOf_eq_take (d : TextDocument) (p : Position) :
    completePrefixOf d p = (fullText d).take (offsetAt d p) := by
  unfold completePrefixOf getTextRange
  have h : offsetAt d (⟨⟨0, 0⟩, p⟩ : Range).start = 0 := offsetAtClamped_zero _
  rw [h, List.drop_zero]

theorem completeSuffixOf_eq_drop (d : TextDocument) (p : Position) :
    completeSuffixOf d p = (fullText d).drop (offsetAt d p) := by
  unfold completeSuffixOf getTextRange
  have h : offsetAt d (positionAt d ((fullText d).length : ℤ)) =
      (fullText d).length := by
    rw [offsetAt_positionAt_int d _ (by positivity) (le_refl _)]
    simp
  simp only [h, List.take_length]

theorem joinN_take_length_le (ls : List Str) (e : ℕ) :
    (joinN (ls.take e)).length ≤ (joinN ls).length := by
  induction ls generalizing e with
  | nil => simp
  | cons l rest ih =>
    cases e with
    | zero => simp [joinN]
    | succ e' =>
      cases rest with
      | nil => simp
      | cons l2 ls2 =>
        cases e' with
        | zero =>
          simp [joinN, List.length_append]
        | succ e'' =>
          have := ih (e'' + 1)
          simp only [List.take_succ_cons] at this ⊢
          simp only [joinN, List.length_append, List.length_cons] at this ⊢
          omega

theorem suffixText_length_le (detect :
      DocContextData → TextDocument → Bool → Option Bool → Option Str)
    (d : TextDocument) (p : Position) (maxP maxS : ℕ) (eet : Bool)
    (st : Option Bool) (ctx : Option SelectedCompletionInfo) :
    (getCurrentDocContext detect d p maxP maxS eet st ctx).suffixText.length ≤
      (fullText d).length - offsetAt d p := by
  obtain ⟨e, _, heq, _, _⟩ :=
    takeSuffixLines_spec (lines (completeSuffixOf d p)) 0 maxS (Nat.zero_le _)
  rw [getCurrentDocContext_suffixText, heq]
  calc (joinN ((lines (completeSuffixOf d p)).take e)).length
      ≤ (joinN (lines (completeSuffixOf d p))).length := joinN_take_length_le _ e
    _ = (completeSuffixOf d p).length := by rw [joinN_lines]
    _ = (fullText d).length - offsetAt d p := by
        rw [completeSuffixOf_eq_drop, List.length_drop]

/-! ## Concrete instances used in closed theorems -/

/-- Black-box stand-in for the external multiline trigger classifier. -/
def noDetect : DocContextData → TextDocument → Bool → Option Bool → Option Str :=
  fun _ _ _ _ => none

/-- Single-line document `"ab"`. -/
def docAB : TextDocument := ⟨[str "ab"]⟩

/-- Two-line document `"ab\ncd"`. -/
def docABCD : TextDocument := ⟨[str "ab", str "cd"]⟩

/-- A completion replacing the whole current line `"ab"` by `"wxyz"`. -/
def sciLong : SelectedCompletionInfo := ⟨⟨⟨0, 0⟩, ⟨0, 2⟩⟩, str "wxyz"⟩

/-- C1 counterexample: with a selected completion whose text is longer than
the replaced span, the patched prefix is longer than the cursor offset, the
range start clamps to the document start, and `contextRange` spans fewer
than `prefix.length + suffix.length` characters. -/
theorem contextRange_span_cex :
    offsetAt docAB ((getCurrentDocContext noDetect docAB ⟨0, 2⟩ 100 100 true
        none (some sciLong)).contextRange.endPos) ≠
      offsetAt docAB ((getCurrentDocContext noDetect docAB ⟨0, 2⟩ 100 100 true
        none (some sciLong)).contextRange.start) +
        ((getCurrentDocContext noDetect docAB ⟨0, 2⟩ 100 100 true none
          (some sciLong)).prefixText.length +
          (getCurrentDocContext noDetect docAB ⟨0, 2⟩ 100 100 true none
          (some sciLong)).suffixText.length) := by
  decide

/-- C1 (amended): `contextRange` is always the pair
`(positionAt (offset - prefix.length), positionAt (offset + suffix.length))`;
whenever `prefix.length ≤ offset` (in particular for every call without a
`SelectedCompletionInfo`, where the prefix is part of the pre-cursor text),
the range spans exactly `prefix.length + suffix.length` characters centered
on the cursor offset.  (The claim's universal span statement fails when an
injected completion makes the prefix longer than the offset; see the
counterexample.) -/
theorem contextRange_spans (detect :
      DocContextData → TextDocument → Bool → Option Bool → Option Str)
    (d : TextDocument) (p : Position) (maxP maxS : ℕ) (eet : Bool)
    (st : Option Bool) (ctx : Option SelectedCompletionInfo)
    (h : (getCurrentDocContext detect d p maxP maxS eet st ctx).prefixText.length ≤
      offsetAt d p) :
    (getCurrentDocContext detect d p maxP maxS eet st ctx).contextRange.start =
      positionAt d ((offsetAt d p : ℤ) -
        ((getCurrentDocContext detect d p maxP maxS eet st ctx).prefixText.length : ℤ)) ∧
    (getCurrentDocContext detect d p maxP maxS eet st ctx).contextRange.endPos =
      positionAt d ((offsetAt d p : ℤ) +
        ((getCurrentDocContext detect d p maxP maxS eet st ctx).suffixText.length : ℤ)) ∧
    offsetAt d ((getCurrentDocContext detect d p maxP maxS eet st ctx).contextRange.start) =
      offsetAt d p -
        (getCurrentDocContext detect d p maxP maxS eet st ctx).prefixText.length ∧
    offsetAt d ((getCurrentDocContext detect d p maxP maxS eet st ctx).contextRange.endPos) =
      offsetAt d p +
        (getCurrentDocContext detect d p maxP maxS eet st ctx).suffixText.length ∧
    offsetAt d ((getCurrentDocContext detect d p maxP maxS eet st ctx).contextRange.endPos) =
      offsetAt d ((getCurrentDocContext detect d p maxP maxS eet st ctx).contextRange.start) +
        ((getCurrentDocContext detect d p maxP maxS eet st ctx).prefixText.length +
          (getCurrentDocContext detect d p maxP maxS eet st ctx).suffixText.length) := by
  have hoff : offsetAt d p ≤ (fullText d).length := offsetAt_le d p
  have hsuf := suffixText_length_le detect d p maxP maxS eet st ctx
  have hstart : (getCurrentDocContext detect d p maxP maxS eet st ctx).contextRange.start =
      positionAt d ((offsetAt d p : ℤ) -
        ((getCurrentDocContext detect d p maxP maxS eet st ctx).prefixText.length : ℤ)) := by
    rw [getCurrentDocContext_contextRange]
  have hend : (getCurrentDocContext detect d p maxP maxS eet st ctx).contextRange.endPos =
      positionAt d ((offsetAt d p : ℤ) +
        ((getCurrentDocContext detect d p maxP maxS eet st ctx).suffixText.length : ℤ)) := by
    rw [getCurrentDocContext_contextRange]
  have hos : offsetAt d ((getCurrentDocContext detect d p maxP maxS eet st ctx).contextRange.start) =
      offsetAt d p -
        (getCurrentDocContext detect d p maxP maxS eet st ctx).prefixText.length := by
    rw [hstart, offsetAt_positionAt_int d _ (by omega) (by omega)]
    omega
  have hoe : offsetAt d ((getCurrentDocContext detect d p maxP maxS eet st ctx).contextRange.endPos) =
      offsetAt d p +
        (getCurrentDocContext detect d p maxP maxS eet st ctx).suffixText.length := by
    rw [hend, offsetAt_positionAt_int d _ (by omega) (by omega)]
    omega
  exact ⟨hstart, hend, hos, hoe, by omega⟩

/-- Witness for C1 (amended): document `"ab\ncd"`, cursor at `(1, 1)`, no
completion context; the hypothesis `prefix.length ≤ offset` holds and the
range spans exactly `prefix.length + suffix.length` characters. -/
theorem contextRange_spans_witness :
    (getCurrentDocContext noDetect docABCD ⟨1, 1⟩ 100 100 true none
        none).prefixText.length ≤ offsetAt docABCD ⟨1, 1⟩ ∧
    offsetAt docABCD ((getCurrentDocContext noDetect docABCD ⟨1, 1⟩ 100 100 true
        none none).contextRange.endPos) =
      offsetAt docABCD ((getCurrentDocContext noDetect docABCD ⟨1, 1⟩ 100 100 true
        none none).contextRange.start) +
        ((getCurrentDocContext noDetect docABCD ⟨1, 1⟩ 100 100 true none
          none).prefixText.length +
          (getCurrentDocContext noDetect docABCD ⟨1, 1⟩ 100 100 true none
          none).suffixText.length) :=
  ⟨by decide,
    (contextRange_spans noDetect docABCD ⟨1, 1⟩ 100 100 true none none
      (by decide)).2.2.2.2⟩

/-! ## Symbolic evaluation helpers for similarity scores
(kernel reduction of ℚ arithmetic is not available, so concrete scores are
computed by rewriting) -/

theorem getSemanticContextWithinDocument_eq (d : TextDocument) (p : Position)
    (k : ℕ) :
    getSemanticContextWithinDocument d p k =
      (semanticFold (lineAt d p.line) d k (lineCount d + 1 - k)).1 := rfl

theorem semanticFold_zero (cur : Str) (d : TextDocument) (k : ℕ) :
    semanticFold cur d k 0 = (⟨[], JSNum.val 0⟩, JSNum.val 0) := rfl

theorem levenshteinDistance_self (a : Str) : levenshteinDistance a a = 0 := by
  rw [levenshteinDistance_eq_editDist]
  exact editDist_self a.reverse

theorem semanticSimilarity_self (a : Str) (h : a ≠ []) :
    semanticSimilarity a a = JSNum.val 1 := by
  unfold semanticSimilarity
  have hl : a.length ≠ 0 := by simpa using h
  rw [if_neg (by omega : ¬ max a.length a.length = 0), levenshteinDistance_self]
  norm_num

/-- Six-line document, all lines `"ab"`: two equally-scoring candidate
5-line blocks. -/
def docSix : TextDocument :=
  ⟨[str "ab", str "ab", str "ab", str "ab", str "ab", str "ab"]⟩

/-- Five-line document, all lines `"aa"`. -/
def docFive : TextDocument :=
  ⟨[str "aa", str "aa", str "aa", str "aa", str "aa"]⟩

theorem aggregateScore_docSix (i : ℕ) (hi : i < 2) :
    aggregateScore (lineAt docSix 0) (blockOfLines docSix i 5) = JSNum.val 5 := by
  have hsim : semanticSimilarity (str "ab") (str "ab") = JSNum.val 1 :=
    semanticSimilarity_self (str "ab") (by decide)
  interval_cases i <;>
  · show aggregateScore (str "ab") [str "ab", str "ab", str "ab", str "ab", str "ab"] =
      JSNum.val 5
    simp only [aggregateScore, List.foldl_cons, List.foldl_nil, hsim, jadd]
    norm_num

theorem getSemanticContext_docSix :
    getSemanticContextWithinDocument docSix ⟨0, 0⟩ 5 =
      ⟨blockOfLines docSix 0 5, JSNum.val 5⟩ := by
  have h0 := aggregateScore_docSix 0 (by omega)
  have h1 := aggregateScore_docSix 1 (by omega)
  have hn : lineCount docSix + 1 - 5 = 0 + 1 + 1 := rfl
  rw [getSemanticContextWithinDocument_eq, hn, semanticFold_succ,
    semanticFold_succ, semanticFold_zero]
  show (semanticStep (lineAt docSix 0) docSix 5
    (semanticStep (lineAt docSix 0) docSix 5 (⟨[], JSNum.val 0⟩, JSNum.val 0) 0)
    (0 + 1)).1 = _
  have e0 : semanticStep (lineAt docSix 0) docSix 5
      (⟨[], JSNum.val 0⟩, JSNum.val 0) 0 =
      (⟨blockOfLines docSix 0 5, JSNum.val 5⟩, JSNum.val 5) := by
    simp only [semanticStep, h0]
    rw [if_pos]
    simp only [jgt, decide_eq_true_eq]
    norm_num
  rw [e0]
  simp only [semanticStep]
  rw [show (0 + 1 : ℕ) = 1 from rfl, h1, jgt_irrefl]
  simp

theorem aggregateScore_docFive :
    aggregateScore (lineAt docFive 2) (blockOfLines docFive 0 5) = JSNum.val 5 := by
  have hsim : semanticSimilarity (str "aa") (str "aa") = JSNum.val 1 :=
    semanticSimilarity_self (str "aa") (by decide)
  show aggregateScore (str "aa") [str "aa", str "aa", str "aa", str "aa", str "aa"] =
    JSNum.val 5
  simp only [aggregateScore, List.foldl_cons, List.foldl_nil, hsim, jadd]
  norm_num

theorem getSemanticContext_docFive :
    getSemanticContextWithinDocument docFive ⟨2, 1⟩ 5 =
      ⟨blockOfLines docFive 0 5, JSNum.val 5⟩ := by
  have h0 := aggregateScore_docFive
  have hn : lineCount docFive + 1 - 5 = 0 + 1 := rfl
  rw [getSemanticContextWithinDocument_eq, hn, semanticFold_succ, semanticFold_zero]
  simp only [semanticStep, h0]
  rw [if_pos]
  simp only [jgt, decide_eq_true_eq]
  norm_num

/-- C3: the sliding-window search returns either the initial empty block with
score 0 — in particular whenever `lineCount < k`, and whenever no candidate's
aggregate score strictly exceeds 0 — or one of the candidate blocks of `k`
consecutive lines together with its aggregate similarity score; in either
case no candidate block's aggregate score strictly exceeds the returned
score (JS `>` comparison, false on `NaN`). -/
theorem semanticSearch_maximal (d : TextDocument) (p : Position) (k : ℕ) :
    (((getSemanticContextWithinDocument d p k).semanticContext = [] ∧
        (getSemanticContextWithinDocument d p k).similarityScore = JSNum.val 0) ∨
      (∃ i, i < lineCount d + 1 - k ∧
        (getSemanticContextWithinDocument d p k).semanticContext =
          blockOfLines d i k ∧
        (getSemanticContextWithinDocument d p k).semanticContext.length = k ∧
        (getSemanticContextWithinDocument d p k).similarityScore =
          aggregateScore (lineAt d p.line) (blockOfLines d i k))) ∧
    (∀ j, j < lineCount d + 1 - k →
      jgt (aggregateScore (lineAt d p.line) (blockOfLines d j k))
        (getSemanticContextWithinDocument d p k).similarityScore = false) ∧
    (lineCount d < k →
      (getSemanticContextWithinDocument d p k).semanticContext = [] ∧
      (getSemanticContextWithinDocument d p k).similarityScore = JSNum.val 0) ∧
    ((∀ j, j < lineCount d + 1 - k →
        jgt (aggregateScore (lineAt d p.line) (blockOfLines d j k))
          (JSNum.val 0) = false) →
      (getSemanticContextWithinDocument d p k).semanticContext = [] ∧
      (getSemanticContextWithinDocument d p k).similarityScore = JSNum.val 0) := by
  rw [getSemanticContextWithinDocument_eq]
  obtain ⟨h1, _, h3, h4⟩ :=
    semanticFold_inv (lineAt d p.line) d k (lineCount d + 1 - k)
  refine ⟨?_, ?_, ?_, ?_⟩
  · rcases h3 with h | ⟨i, hi, hbl, hsc, _, _⟩
    · exact Or.inl h
    · refine Or.inr ⟨i, hi, hbl, ?_, hsc⟩
      rw [hbl]
      simp [blockOfLines]
  · intro j hj
    have := h4 j hj
    rw [h1] at this
    exact this
  · intro hk
    have hz : lineCount d + 1 - k = 0 := by omega
    rw [hz, semanticFold_zero]
    exact ⟨rfl, rfl⟩
  · intro hall
    rcases h3 with h | ⟨i, hi, _, _, hpos, _⟩
    · exact h
    · rw [hall i hi] at hpos
      exact absurd hpos Bool.false_ne_true

/-- Witness for C3 at the five-line document `docFive`, cursor `(2, 1)`,
`k = 5`. -/
theorem semanticSearch_maximal_witness :
    (((getSemanticContextWithinDocument docFive ⟨2, 1⟩ 5).semanticContext = [] ∧
        (getSemanticContextWithinDocument docFive ⟨2, 1⟩ 5).similarityScore =
          JSNum.val 0) ∨
      (∃ i, i < lineCount docFive + 1 - 5 ∧
        (getSemanticContextWithinDocument docFive ⟨2, 1⟩ 5).semanticContext =
          blockOfLines docFive i 5 ∧
        (getSemanticContextWithinDocument docFive ⟨2, 1⟩ 5).semanticContext.length
          = 5 ∧
        (getSemanticContextWithinDocument docFive ⟨2, 1⟩ 5).similarityScore =
          aggregateScore (lineAt docFive (⟨2, 1⟩ : Position).line)
            (blockOfLines docFive i 5))) ∧
    (∀ j, j < lineCount docFive + 1 - 5 →
      jgt (aggregateScore (lineAt docFive (⟨2, 1⟩ : Position).line)
          (blockOfLines docFive j 5))
        (getSemanticContextWithinDocument docFive ⟨2, 1⟩ 5).similarityScore =
        false) ∧
    (lineCount docFive < 5 →
      (getSemanticContextWithinDocument docFive ⟨2, 1⟩ 5).semanticContext = [] ∧
      (getSemanticContextWithinDocument docFive ⟨2, 1⟩ 5).similarityScore =
        JSNum.val 0) ∧
    ((∀ j, j < lineCount docFive + 1 - 5 →
        jgt (aggregateScore (lineAt docFive (⟨2, 1⟩ : Position).line)
            (blockOfLines docFive j 5))
          (JSNum.val 0) = false) →
      (getSemanticContextWithinDocument docFive ⟨2, 1⟩ 5).semanticContext = [] ∧
      (getSemanticContextWithinDocument docFive ⟨2, 1⟩ 5).similarityScore =
        JSNum.val 0) :=
  semanticSearch_maximal docFive ⟨2, 1⟩ 5

/-- C4: when the search returns a (non-initial) winning block, it is the
candidate at a start index `i` that no candidate strictly beats, and no
earlier candidate even matches its score — so among equally-scoring maximal
candidates the smallest start index wins: a later block whose score merely
equals (does not strictly exceed) the current best never replaces it. -/
theorem semanticSearch_tiebreak (d : TextDocument) (p : Position) (k : ℕ)
    (h : (getSemanticContextWithinDocument d p k).semanticContext ≠ []) :
    ∃ i, i < lineCount d + 1 - k ∧
      (getSemanticContextWithinDocument d p k).semanticContext =
        blockOfLines d i k ∧
      (getSemanticContextWithinDocument d p k).similarityScore =
        aggregateScore (lineAt d p.line) (blockOfLines d i k) ∧
      (∀ j, j < lineCount d + 1 - k →
        jgt (aggregateScore (lineAt d p.line) (blockOfLines d j k))
          (aggregateScore (lineAt d p.line) (blockOfLines d i k)) = false) ∧
      (∀ j, j < i →
        aggregateScore (lineAt d p.line) (blockOfLines d j k) ≠
          aggregateScore (lineAt d p.line) (blockOfLines d i k)) := by
  rw [getSemanticContextWithinDocument_eq] at h ⊢
  obtain ⟨h1, _, h3, h4⟩ :=
    semanticFold_inv (lineAt d p.line) d k (lineCount d + 1 - k)
  rcases h3 with ⟨hemp, _⟩ | ⟨i, hi, hbl, hsc, _, hne⟩
  · exact absurd hemp h
  · refine ⟨i, hi, hbl, hsc, ?_, hne⟩
    intro j hj
    have := h4 j hj
    rw [h1, hsc] at this
    exact this

/-- Witness for C4 at the six-line document `docSix` (the candidate blocks at
start indices 0 and 1 tie with aggregate score 5; the block at index 0 is
returned), cursor `(0, 0)`, `k = 5`. -/
theorem semanticSearch_tiebreak_witness :
    ∃ i, i < lineCount docSix + 1 - 5 ∧
      (getSemanticContextWithinDocument docSix ⟨0, 0⟩ 5).semanticContext =
        blockOfLines docSix i 5 ∧
      (getSemanticContextWithinDocument docSix ⟨0, 0⟩ 5).similarityScore =
        aggregateScore (lineAt docSix (⟨0, 0⟩ : Position).line)
          (blockOfLines docSix i 5) ∧
      (∀ j, j < lineCount docSix + 1 - 5 →
        jgt (aggregateScore (lineAt docSix (⟨0, 0⟩ : Position).line)
            (blockOfLines docSix j 5))
          (aggregateScore (lineAt docSix (⟨0, 0⟩ : Position).line)
            (blockOfLines docSix i 5)) = false) ∧
      (∀ j, j < i →
        aggregateScore (lineAt docSix (⟨0, 0⟩ : Position).line)
            (blockOfLines docSix j 5) ≠
          aggregateScore (lineAt docSix (⟨0, 0⟩ : Position).line)
            (blockOfLines docSix i 5)) :=
  semanticSearch_tiebreak docSix ⟨0, 0⟩ 5
    (by rw [getSemanticContext_docSix]; simp [blockOfLines])

/-- C10: the candidate enumeration does not exclude blocks overlapping the
cursor: in `docFive` with the cursor on line 2, the (highest-scoring) block
covering lines 0-4 is returned, and it contains the cursor's own line; the
builder joins exactly this block into the `semanticContext` field. -/
theorem semanticSearch_includes_cursor_line :
    (getSemanticContextWithinDocument docFive ⟨2, 1⟩ 5).semanticContext =
      blockOfLines docFive 0 5 ∧
    lineAt docFive 2 ∈
      (getSemanticContextWithinDocument docFive ⟨2, 1⟩ 5).semanticContext ∧
    (getCurrentDocContext noDetect docFive ⟨2, 1⟩ 100 100 true none
        none).semanticContext = joinN (blockOfLines docFive 0 5) := by
  refine ⟨by rw [getSemanticContext_docFive], ?_, ?_⟩
  · rw [getSemanticContext_docFive]
    decide
  · rw [getCurrentDocContext_semanticContext, getSemanticContext_docFive]

/-- Three-line document `"abc\ndef\nghi"`. -/
def docThree : TextDocument := ⟨[str "abc", str "def", str "ghi"]⟩

/-- C5: when the cursor offset exceeds `maxPrefixLength`, the prefix is the
newline-join of the lines kept by the backward walk over the (possibly
completion-patched) pre-cursor line sequence — the trailing batch of lines
starting at the least index whose raw line lengths (no newline cost) total
at most `maxPrefixLength`, every earlier start index overflowing the cap;
otherwise the prefix is the entire (possibly patched) pre-cursor text. -/
theorem prefixTruncation (detect :
      DocContextData → TextDocument → Bool → Option Bool → Option Str)
    (d : TextDocument) (p : Position) (maxP maxS : ℕ) (eet : Bool)
    (st : Option Bool) (ctx : Option SelectedCompletionInfo) :
    (maxP < offsetAt d p →
      ∃ s, s ≤ (prefixLinesOf d p ctx).length ∧
        (getCurrentDocContext detect d p maxP maxS eet st ctx).prefixText =
          joinN ((prefixLinesOf d p ctx).drop s) ∧
        sumLens ((prefixLinesOf d p ctx).drop s) ≤ maxP ∧
        (∀ t, t < s → maxP < sumLens ((prefixLinesOf d p ctx).drop t))) ∧
    (offsetAt d p ≤ maxP →
      (getCurrentDocContext detect d p maxP maxS eet st ctx).prefixText =
        completePrefixWithContextCompletion d p ctx) := by
  constructor
  · intro h
    obtain ⟨s, hs, heq, hsum, hover⟩ :=
      keepLastLines_drop (prefixLinesOf d p ctx) maxP
    refine ⟨s, hs, ?_, hsum, hover⟩
    rw [getCurrentDocContext_prefixText, if_pos h, heq]
  · intro h
    rw [getCurrentDocContext_prefixText, if_neg (by omega)]
    unfold prefixLinesOf
    rw [joinN_lines]

/-- Witness for C5: document `"abc\ndef\nghi"`, cursor at the end
(offset 11), cap 5: only the last line (3 characters) is kept. -/
theorem prefixTruncation_witness :
    ∃ s, s ≤ (prefixLinesOf docThree ⟨2, 3⟩ none).length ∧
      (getCurrentDocContext noDetect docThree ⟨2, 3⟩ 5 5 true none
        none).prefixText = joinN ((prefixLinesOf docThree ⟨2, 3⟩ none).drop s) ∧
      sumLens ((prefixLinesOf docThree ⟨2, 3⟩ none).drop s) ≤ 5 ∧
      (∀ t, t < s → 5 < sumLens ((prefixLinesOf docThree ⟨2, 3⟩ none).drop t)) :=
  (prefixTruncation noDetect docThree ⟨2, 3⟩ 5 5 true none none).1 (by decide)

/-- C6: the suffix is the newline-join of the longest initial batch of
post-cursor lines whose raw lengths total at most `maxSuffixLength` (the
walk stops at the first line whose inclusion would exceed the cap, and later
lines are never reconsidered); in particular, if even the first post-cursor
line exceeds the cap, the suffix is empty. -/
theorem suffixTruncation (detect :
      DocContextData → TextDocument → Bool → Option Bool → Option Str)
    (d : TextDocument) (p : Position) (maxP maxS : ℕ) (eet : Bool)
    (st : Option Bool) (ctx : Option SelectedCompletionInfo) :
    (∃ e, e ≤ (lines (completeSuffixOf d p)).length ∧
      (getCurrentDocContext detect d p maxP maxS eet st ctx).suffixText =
        joinN ((lines (completeSuffixOf d p)).take e) ∧
      sumLens ((lines (completeSuffixOf d p)).take e) ≤ maxS ∧
      (e < (lines (completeSuffixOf d p)).length →
        maxS < sumLens ((lines (completeSuffixOf d p)).take (e + 1)))) ∧
    (maxS < ((lines (completeSuffixOf d p)).headD []).length →
      (getCurrentDocContext detect d p maxP maxS eet st ctx).suffixText = []) := by
  obtain ⟨e, he, heq, hsum, hover⟩ :=
    takeSuffixLines_spec (lines (completeSuffixOf d p)) 0 maxS (Nat.zero_le _)
  constructor
  · refine ⟨e, he, ?_, by omega, fun hlt => by have := hover hlt; omega⟩
    rw [getCurrentDocContext_suffixText, heq]
  · intro hhead
    rw [getCurrentDocContext_suffixText]
    cases hsl : lines (completeSuffixOf d p) with
    | nil => simp [takeSuffixLines, joinN]
    | cons l rest =>
      rw [hsl] at hhead
      simp only [List.headD_cons] at hhead
      simp [takeSuffixLines, Nat.zero_add, hhead, joinN]

/-- Witness for C6: document `"abc\ndef\nghi"`, cursor `(1, 1)`, suffix cap
4: the walk keeps `"ef"` and stops before `"ghi"`. -/
theorem suffixTruncation_witness :
    (∃ e, e ≤ (lines (completeSuffixOf docThree ⟨1, 1⟩)).length ∧
      (getCurrentDocContext noDetect docThree ⟨1, 1⟩ 100 4 true none
        none).suffixText =
        joinN ((lines (completeSuffixOf docThree ⟨1, 1⟩)).take e) ∧
      sumLens ((lines (completeSuffixOf docThree ⟨1, 1⟩)).take e) ≤ 4 ∧
      (e < (lines (completeSuffixOf docThree ⟨1, 1⟩)).length →
        4 < sumLens ((lines (completeSuffixOf docThree ⟨1, 1⟩)).take (e + 1)))) ∧
    (4 < ((lines (completeSuffixOf docThree ⟨1, 1⟩)).headD []).length →
      (getCurrentDocContext noDetect docThree ⟨1, 1⟩ 100 4 true none
        none).suffixText = []) :=
  suffixTruncation noDetect docThree ⟨1, 1⟩ 100 4 true none none

/-- The completion whose splice leaves the pre-cursor text unchanged in
length: replacing `"ab"` by `"ab"`. -/
def sciSame : SelectedCompletionInfo := ⟨⟨⟨0, 0⟩, ⟨0, 2⟩⟩, str "ab"⟩

/-- C7: `injectedPrefix` is never the empty string: it is `none` whenever no
`SelectedCompletionInfo` is supplied, and also whenever the delta introduced
by splicing the selected completion into the pre-cursor text is empty. -/
theorem injectedPrefix_never_empty (detect :
      DocContextData → TextDocument → Bool → Option Bool → Option Str)
    (d : TextDocument) (p : Position) (maxP maxS : ℕ) (eet : Bool)
    (st : Option Bool) (ctx : Option SelectedCompletionInfo) :
    (getCurrentDocContext detect d p maxP maxS eet st ctx).injectedPrefix ≠
      some [] ∧
    (ctx = none →
      (getCurrentDocContext detect d p maxP maxS eet st ctx).injectedPrefix =
        none) ∧
    (∀ sci, ctx = some sci →
      (patchedPrefix (completePrefixOf d p) p sci).drop
        (completePrefixOf d p).length = [] →
      (getCurrentDocContext detect d p maxP maxS eet st ctx).injectedPrefix =
        none) := by
  rw [getCurrentDocContext_injectedPrefix]
  refine ⟨?_, ?_, ?_⟩
  · cases ctx with
    | none => simp [injectedPrefixOf]
    | some sci =>
      simp only [injectedPrefixOf, injectedOf]
      split
      · simp
      · rename_i hne
        simp only [ne_eq, Option.some.injEq]
        intro hcontra
        exact hne hcontra
  · intro h
    subst h
    rfl
  · intro sci h hdelta
    subst h
    simp [injectedPrefixOf, injectedOf, hdelta]

/-- Witness for C7: splicing a completion identical to the replaced text
produces an empty delta, normalized to `none`. -/
theorem injectedPrefix_never_empty_witness :
    (getCurrentDocContext noDetect docAB ⟨0, 2⟩ 100 100 true none
      (some sciSame)).injectedPrefix = none :=
  (injectedPrefix_never_empty noDetect docAB ⟨0, 2⟩ 100 100 true none
    (some sciSame)).2.2 sciSame rfl (by decide)

/-- The empty document (`lineCount = 0`). -/
def docEmpty : TextDocument := ⟨[]⟩

theorem offsetAt_emptyDoc (p : Position) : offsetAt ⟨[]⟩ p = 0 := rfl

/-- C8: for a document with `lineCount = 0` every operation is total (the
model evaluates to a well-defined `DocumentContext`; the host accessors are
clamped): the semantic search returns the empty block with score 0, the
`semanticContext` field is empty, and with no completion supplied the
prefix, suffix and injected prefix are all empty/`none`. -/
theorem emptyDoc_wellDefined (detect :
      DocContextData → TextDocument → Bool → Option Bool → Option Str)
    (d : TextDocument) (p : Position) (maxP maxS : ℕ) (eet : Bool)
    (st : Option Bool) (ctx : Option SelectedCompletionInfo)
    (h : lineCount d = 0) :
    getSemanticContextWithinDocument d p 5 =
      ⟨[], JSNum.val 0⟩ ∧
    (getCurrentDocContext detect d p maxP maxS eet st ctx).semanticContext =
      [] ∧
    (ctx = none →
      (getCurrentDocContext detect d p maxP maxS eet st ctx).prefixText = [] ∧
      (getCurrentDocContext detect d p maxP maxS eet st ctx).suffixText = [] ∧
      (getCurrentDocContext detect d p maxP maxS eet st ctx).injectedPrefix =
        none) := by
  obtain ⟨dl⟩ := d
  have hd : dl = [] := List.length_eq_zero.mp h
  subst hd
  have hsem : getSemanticContextWithinDocument ⟨[]⟩ p 5 =
      ⟨[], JSNum.val 0⟩ := rfl
  refine ⟨hsem, ?_, ?_⟩
  · rw [getCurrentDocContext_semanticContext, hsem]
    rfl
  · intro hc
    subst hc
    have hoff : offsetAt ⟨[]⟩ p = 0 := rfl
    refine ⟨?_, ?_, rfl⟩
    · rw [getCurrentDocContext_prefixText, if_neg (by omega)]
      unfold prefixLinesOf
      rw [joinN_lines]
      simp [completePrefixWithContextCompletion, completePrefixOf, getTextRange,
        fullText, joinN]
    · rw [getCurrentDocContext_suffixText]
      have hsuf : completeSuffixOf ⟨[]⟩ p = [] := by
        simp [completeSuffixOf, getTextRange, fullText, joinN]
      rw [hsuf]
      show joinN (takeSuffixLines [[]] 0 maxS) = []
      simp [takeSuffixLines, joinN]

/-- Witness for C8 at the concrete empty document. -/
theorem emptyDoc_wellDefined_witness :
    getSemanticContextWithinDocument docEmpty ⟨0, 0⟩ 5 =
      ⟨[], JSNum.val 0⟩ ∧
    (getCurrentDocContext noDetect docEmpty ⟨0, 0⟩ 7 7 true none
      none).semanticContext = [] ∧
    (none = (none : Option SelectedCompletionInfo) →
      (getCurrentDocContext noDetect docEmpty ⟨0, 0⟩ 7 7 true none
        none).prefixText = [] ∧
      (getCurrentDocContext noDetect docEmpty ⟨0, 0⟩ 7 7 true none
        none).suffixText = [] ∧
      (getCurrentDocContext noDetect docEmpty ⟨0, 0⟩ 7 7 true none
        none).injectedPrefix = none) :=
  emptyDoc_wellDefined noDetect docEmpty ⟨0, 0⟩ 7 7 true none none rfl

/-- Single-line document of ten `a`s. -/
def docAs : TextDocument := ⟨[str "aaaaaaaaaa"]⟩

/-- A completion replacing the last four characters by six. -/
def sciRS : SelectedCompletionInfo := ⟨⟨⟨0, 6⟩, ⟨0, 10⟩⟩, str "xyzqrs"⟩

/-- C9 counterexample: with cap 5 and cursor offset 10, the backward walk
truncates the prefix to the empty string while the splice delta is
`"rs"`, so the present `injectedPrefix` is not a suffix of the returned
prefix. -/
theorem injectedPrefix_suffix_cex :
    (getCurrentDocContext noDetect docAs ⟨0, 10⟩ 5 5 true none
      (some sciRS)).injectedPrefix = some (str "rs") ∧
    ¬ (str "rs") <:+ (getCurrentDocContext noDetect docAs ⟨0, 10⟩ 5 5 true none
      (some sciRS)).prefixText := by
  constructor
  · decide
  · intro hsuf
    have hlen := hsuf.length_le
    have hp : (getCurrentDocContext noDetect docAs ⟨0, 10⟩ 5 5 true none
        (some sciRS)).prefixText = [] := by decide
    rw [hp] at hlen
    simp [str] at hlen

/-- C9 (amended): whenever `injectedPrefix` is present it is a suffix of the
*patched* pre-cursor text, its length never exceeds the number of characters
the splice added, and whenever the prefix is not truncated
(`offset ≤ maxPrefixLength`) it is also a suffix of the returned prefix.
(The claim's statement that it is always a suffix of the returned prefix
fails when truncation shrinks the prefix below the injected text; see the
counterexample.) -/
theorem injectedPrefix_suffix_amended (detect :
      DocContextData → TextDocument → Bool → Option Bool → Option Str)
    (d : TextDocument) (p : Position) (maxP maxS : ℕ) (eet : Bool)
    (st : Option Bool) (sci : SelectedCompletionInfo) (inj : Str)
    (h : (getCurrentDocContext detect d p maxP maxS eet st
      (some sci)).injectedPrefix = some inj) :
    inj <:+ patchedPrefix (completePrefixOf d p) p sci ∧
    inj.length + (completePrefixOf d p).length ≤
      (patchedPrefix (completePrefixOf d p) p sci).length ∧
    (offsetAt d p ≤ maxP →
      inj <:+ (getCurrentDocContext detect d p maxP maxS eet st
        (some sci)).prefixText) := by
  rw [getCurrentDocContext_injectedPrefix] at h
  simp only [injectedPrefixOf, injectedOf] at h
  split at h
  · exact absurd h (by simp)
  · rename_i hne
    have hinj : inj = (patchedPrefix (completePrefixOf d p) p sci).drop
        (completePrefixOf d p).length := by
      have := Option.some.inj h
      exact this.symm
    subst hinj
    refine ⟨List.drop_suffix _ _, ?_, ?_⟩
    · have hlt : (completePrefixOf d p).length ≤
          (patchedPrefix (completePrefixOf d p) p sci).length := by
        by_contra hge
        push_neg at hge
        exact hne (List.drop_eq_nil_of_le (Nat.le_of_lt hge))
      rw [List.length_drop]
      omega
    · intro hle
      rw [getCurrentDocContext_prefixText, if_neg (by omega)]
      unfold prefixLinesOf
      rw [joinN_lines]
      show _ <:+ completePrefixWithContextCompletion d p (some sci)
      unfold completePrefixWithContextCompletion
      exact List.drop_suffix _ _

/-- Witness for C9 (amended): the splice of `"wxyz"` over `"ab"` injects
`"yz"`, which is a suffix of the untruncated prefix `"wxyz"`. -/
theorem injectedPrefix_suffix_amended_witness :
    (str "yz") <:+ patchedPrefix (completePrefixOf docAB ⟨0, 2⟩) ⟨0, 2⟩
      sciLong ∧
    (str "yz").length + (completePrefixOf docAB ⟨0, 2⟩).length ≤
      (patchedPrefix (completePrefixOf docAB ⟨0, 2⟩) ⟨0, 2⟩ sciLong).length ∧
    (offsetAt docAB ⟨0, 2⟩ ≤ 100 →
      (str "yz") <:+ (getCurrentDocContext noDetect docAB ⟨0, 2⟩ 100 100 true
        none (some sciLong)).prefixText) :=
  injectedPrefix_suffix_amended noDetect docAB ⟨0, 2⟩ 100 100 true none
    sciLong (str "yz") (by decide)
